import Mathlib

set_option linter.unusedSectionVars false

/-!
Formal model of the sylph fuzzy-matching engine (src/rust/src/matcher.rs and
src/rust/src/ffi.rs), checked against its natural-language specification.

Modelling conventions:
* `f64` values are modelled by exact real numbers (`ℝ`) where transcendental
  functions occur (the frecency counter), while the selection machinery is
  kept polymorphic in a linearly ordered score type `α`, so that concrete
  runs can be evaluated over `ℚ`.  The `partial_cmp(..).unwrap_or(Equal)`
  comparisons in the source are modelled on the NaN-free fragment, where
  `partial_cmp` is total.
* The skim fuzzy matcher (crate `fuzzy_matcher`) and the sqlite store
  (crate `rusqlite`) are external to this repository; the fuzzy matcher
  enters the model as an abstract function `String → String → Option Int`,
  and the sqlite tables of `FrequencyCounter` are modelled as the state
  they hold (a clock and a name-to-count map).
* The `Vec<Match>` backing `BinaryHeap<Match, MinComparator>` is modelled as
  `List (Match α)` with positional get/set; the heap algorithms
  (`sift_up`, `sift_down_range`, `sift_down_to_bottom`, `push`, `pop`,
  `into_sorted_vec`) are translated from the `binary_heap_plus` crate
  (a copy of the standard library binary heap) operation by operation,
  with the hole mechanics made explicit (`elem` is the value held out of
  the hole).
* `itertools::process_results` is modelled by `processResults`, which
  short-circuits at the first `Err`, exactly as the iterator adapter does.
-/

namespace Sylph

/-- matcher.rs:33 `OwnedLine`: the `{path, line}` candidate pair
(the `Line` trait instance the engine owns). -/
structure OwnedLine where
  path : String
  line : String
deriving DecidableEq

/-- matcher.rs:50 `Match`, polymorphic in the score type (`f64` in the
source). -/
structure Match (α : Type) where
  index : Nat
  score : α
  context_score : α
  query_score : α
  frequency_score : α
deriving DecidableEq

variable {α : Type} [LinearOrder α] {L E : Type}

/-- `f64::partial_cmp` on the NaN-free fragment (where it is total), as used
at matcher.rs:68 and matcher.rs:163. -/
def fcmp (x y : α) : Ordering :=
  if x < y then .lt else if y < x then .gt else .eq

/-- matcher.rs:66 `impl Ord for Match`: compares only the `score` field. -/
def mcmp (a b : Match α) : Ordering :=
  fcmp a.score b.score

/-- `binary_heap_plus::MinComparator`: the heap comparator is the reversed
`Match` order, so the heap is a max-heap with respect to `hcmp`, that is a
min-heap in score. -/
def hcmp (a b : Match α) : Ordering :=
  mcmp b a

/-- The loop of `BinaryHeap::sift_up(start, pos)`: the hole starts at `pos`
holding `elem`; while the hole is above `start` and `elem` is greater (per
the heap comparator) than the parent, the parent moves down into the hole.
The extra `fuel` argument only makes the recursion structural: the hole
index strictly decreases, so any `fuel ≥ pos` never runs out (at `fuel = 0`
the invariant forces `pos = 0`, and both exits agree). -/
def siftUpGo (start : Nat) (elem : Match α) :
    Nat → List (Match α) → Nat → List (Match α)
  | 0, arr, pos => arr.set pos elem
  | fuel + 1, arr, pos =>
    if start < pos then
      if hcmp elem (arr.getD ((pos - 1) / 2) elem) = .gt then
        siftUpGo start elem fuel (arr.set pos (arr.getD ((pos - 1) / 2) elem)) ((pos - 1) / 2)
      else arr.set pos elem
    else arr.set pos elem

/-- `BinaryHeap::sift_up(start, pos)` (the final hole position is only
needed by `sift_down_to_bottom`, which re-runs the walk). -/
def siftUp (arr : List (Match α)) (start pos : Nat) (elem : Match α) :
    List (Match α) :=
  siftUpGo start elem pos arr pos

/-- `BinaryHeap::push`: append, then sift the new element up from the old
length. -/
def heapPush (arr : List (Match α)) (item : Match α) : List (Match α) :=
  siftUp (arr ++ [item]) 0 arr.length item

/-- The loop of `BinaryHeap::sift_down_range(pos, end)`: the hole starts at
`pos` holding `elem`; at each step the greater child is chosen (the right
child on ties), and the walk stops as soon as `elem` is not less than that
child.  `fuel ≥ fin - pos` never runs out: the hole index strictly grows
and stays below `fin`, and at `fuel = 0` the invariant forces `fin ≤ pos`,
where both exits agree. -/
def siftDownRangeGo (fin : Nat) (elem : Match α) :
    Nat → List (Match α) → Nat → List (Match α)
  | 0, arr, pos => arr.set pos elem
  | fuel + 1, arr, pos =>
    if 2 * pos + 1 < fin then
      if 2 * pos + 2 < fin ∧
          hcmp (arr.getD (2 * pos + 1) elem) (arr.getD (2 * pos + 2) elem) ≠ .gt then
        if hcmp elem (arr.getD (2 * pos + 2) elem) ≠ .lt then arr.set pos elem
        else siftDownRangeGo fin elem fuel (arr.set pos (arr.getD (2 * pos + 2) elem)) (2 * pos + 2)
      else
        if hcmp elem (arr.getD (2 * pos + 1) elem) ≠ .lt then arr.set pos elem
        else siftDownRangeGo fin elem fuel (arr.set pos (arr.getD (2 * pos + 1) elem)) (2 * pos + 1)
    else arr.set pos elem

/-- `BinaryHeap::sift_down_range(pos, end)`. -/
def siftDownRange (arr : List (Match α)) (pos fin : Nat) (elem : Match α) :
    List (Match α) :=
  siftDownRangeGo fin elem fin arr pos

/-- The descending walk of `BinaryHeap::sift_down_to_bottom`: the hole moves
unconditionally to the greater child until it has no child in range; returns
the array and the final hole position.  `fuel` as in `siftDownRangeGo`. -/
def siftDownToBottomGo (fin : Nat) (elem : Match α) :
    Nat → List (Match α) → Nat → List (Match α) × Nat
  | 0, arr, pos => (arr, pos)
  | fuel + 1, arr, pos =>
    if 2 * pos + 1 < fin then
      if 2 * pos + 2 < fin ∧
          hcmp (arr.getD (2 * pos + 1) elem) (arr.getD (2 * pos + 2) elem) ≠ .gt then
        siftDownToBottomGo fin elem fuel (arr.set pos (arr.getD (2 * pos + 2) elem)) (2 * pos + 2)
      else
        siftDownToBottomGo fin elem fuel (arr.set pos (arr.getD (2 * pos + 1) elem)) (2 * pos + 1)
    else (arr, pos)

/-- `BinaryHeap::sift_down_to_bottom(pos)`: move the hole to the bottom,
then sift `elem` back up from there. -/
def siftDownToBottom (arr : List (Match α)) (start : Nat) (elem : Match α) :
    List (Match α) :=
  let p := siftDownToBottomGo arr.length elem arr.length arr start
  siftUp p.1 start p.2 elem

/-- `BinaryHeap::pop` as used at matcher.rs:244 (the popped element is
discarded by the caller, so only the remaining heap is returned): the last
element is swapped into the root and sifted down to the bottom. -/
def heapPop (arr : List (Match α)) : List (Match α) :=
  match arr.getLast? with
  | none => arr
  | some last =>
    let arr2 := arr.dropLast
    if arr2.length = 0 then arr2
    else siftDownToBottom (arr2.set 0 last) 0 last

/-- `BinaryHeap::peek`: the root of the heap (the minimum-score `Match`
under `MinComparator`). -/
def heapPeek (arr : List (Match α)) : Option (Match α) :=
  arr.head?

/-- The `while end > 1 { end -= 1; swap(0, end); sift_down_range(0, end) }`
loop of `BinaryHeap::into_sorted_vec` (`d` is a dummy default for the
positional reads; it is never used on the in-range indices). -/
def isvLoop (arr : List (Match α)) (d : Match α) : Nat → List (Match α)
  | 0 => arr
  | 1 => arr
  | e + 2 =>
    let x0 := arr.getD 0 d
    let xe := arr.getD (e + 1) d
    let arr2 := (arr.set 0 xe).set (e + 1) x0
    isvLoop (siftDownRange arr2 0 (e + 1) xe) d (e + 1)

/-- `BinaryHeap::into_sorted_vec`: heap-sort the backing vector in place.
With `MinComparator` the result is ascending per the comparator, that is
descending in score. -/
def intoSortedVec (arr : List (Match α)) : List (Match α) :=
  match arr with
  | [] => []
  | m :: _ => isvLoop arr m arr.length

/-- The accumulator step of the fold at matcher.rs:146-158: push while
below capacity, otherwise overwrite the first strictly smaller-scoring
entry (`iter().position(|x| x.score < mtch.score)`), else discard. -/
def foldStep (num_results : Nat) (entries : List (Match α)) (mtch : Match α) :
    List (Match α) :=
  if entries.length < num_results then entries ++ [mtch]
  else
    match entries.findIdx? (fun x => decide (x.score < mtch.score)) with
    | some idx => entries.set idx mtch
    | none => entries

/-- The ordering used by `sort_unstable_by` at matcher.rs:162-167
(score comparison reversed, i.e. descending by score), as a relation. -/
def scoreGe (a b : Match α) : Prop :=
  b.score ≤ a.score

instance : DecidableRel (scoreGe (α := α)) :=
  fun a b => inferInstanceAs (Decidable (b.score ≤ a.score))

instance : IsTotal (Match α) scoreGe :=
  ⟨fun a b => (le_total b.score a.score).elim Or.inl Or.inr⟩

instance : IsTrans (Match α) scoreGe :=
  ⟨fun _ _ _ hab hbc => le_trans hbc hab⟩

/-- `itertools::process_results`: sequence per-item `Result`s,
short-circuiting at the first `Err`. -/
def processResults (f : L → Except E (Option (Match α))) :
    List L → Except E (List (Option (Match α)))
  | [] => .ok []
  | x :: xs =>
    match f x with
    | .error e => .error e
    | .ok y =>
      match processResults f xs with
      | .error e => .error e
      | .ok ys => .ok (y :: ys)

/-- matcher.rs:99-172 `Matcher::best_matches`, parameterized by the per-line
scoring closure (the lambda at matcher.rs:110-143, instantiated below as
`Matcher.scoreLine`): enumerate the lines, score each, short-circuit on
errors, fold the emitted matches through the bounded buffer, sort by score
descending and take the first `num_results`.  The model's sort is a stable
descending sort, matching the insertion sort Rust uses for the small slices
all concrete runs below stay in (tie order of larger unstable sorts is not
relied on by any theorem). -/
def best_matches (scorer : Nat → L → Except E (Option (Match α)))
    (num_results : Nat) (lines : List L) : Except E (List (Match α)) :=
  match processResults (fun p => scorer p.1 p.2) lines.enum with
  | .error e => .error e
  | .ok opts =>
    .ok (((((opts.filterMap id).foldl (foldStep num_results) []).insertionSort
      scoreGe)).take num_results)

/-- matcher.rs:185-193 `IncrementalMatcher`: the session state that changes
across `process` calls (`progressed_to` and the min-heap of kept results;
`matcher`, `query`, `context`, `lines` and `num_results` are fixed for the
session and appear as parameters of `process`). -/
structure IncrementalMatcher (α : Type) where
  progressed_to : Nat
  results : List (Match α)
deriving DecidableEq

/-- matcher.rs:196-199 `Progress`. -/
inductive Progress (α : Type) where
  | working
  | done (results : List (Match α))
deriving DecidableEq

/-- matcher.rs:202-218 `IncrementalMatcher::new`. -/
def IncrementalMatcher.new : IncrementalMatcher α :=
  ⟨0, []⟩

/-- The body of the `for mm in new_matches` loop at matcher.rs:232-250:
shift the chunk-relative index, push while the heap is below capacity,
otherwise replace the root only when the new match is strictly greater
(per `Match`'s score-only order) than it. -/
def offerMatch (num_results progressed_to : Nat) (res : List (Match α))
    (mm : Match α) : List (Match α) :=
  let m : Match α := { mm with index := mm.index + progressed_to }
  if res.length < num_results then heapPush res m
  else
    match heapPeek res with
    | some smallest => if mcmp m smallest = .gt then heapPush (heapPop res) m else res
    | none => res

/-- matcher.rs:220-257 `IncrementalMatcher::process`: if already caught up,
return `Done` of the sorted heap (without mutating anything); otherwise
score the next `num_lines` lines via `best_matches` on the slice, offer each
resulting match to the heap, advance `progressed_to`, and report `Done` or
`Working`. -/
def IncrementalMatcher.process (scorer : Nat → L → Except E (Option (Match α)))
    (num_results : Nat) (lines : List L) (s : IncrementalMatcher α)
    (num_lines : Nat) : Except E (IncrementalMatcher α × Progress α) :=
  if s.progressed_to = lines.length then
    .ok (s, .done (intoSortedVec s.results))
  else
    let ending := min (s.progressed_to + num_lines) lines.length
    match best_matches scorer num_results
        ((lines.drop s.progressed_to).take (ending - s.progressed_to)) with
    | .error e => .error e
    | .ok new_matches =>
      let results := new_matches.foldl (offerMatch num_results s.progressed_to) s.results
      if ending = lines.length then .ok (⟨ending, results⟩, .done (intoSortedVec results))
      else .ok (⟨ending, results⟩, .working)

/-- matcher.rs:263-265 `FrequencyCounter`: the state held in its sqlite
database — the single-row `clock` table (an `isize`, modelled as `ℤ`) and
the `counts` table mapping names to `REAL` counts (modelled as `ℝ`,
`none` when the name has no row). -/
structure FrequencyCounter where
  clock : Int
  counts : String → Option Real

/-- matcher.rs:268-280 `FrequencyCounter::new` on a fresh cache: the clock
row is initialised to 0 and the `counts` table is empty. -/
noncomputable def FrequencyCounter.new : FrequencyCounter :=
  ⟨0, fun _ => none⟩

/-- matcher.rs:282-299 `FrequencyCounter::update`: increment the clock,
read the entry's count (0 when absent), and store
`clock + ln(exp(clock - count) + 1)` for the entry. -/
noncomputable def FrequencyCounter.update (fc : FrequencyCounter) (entry : String) :
    FrequencyCounter :=
  let clock := fc.clock + 1
  let count := (fc.counts entry).getD 0
  { clock := clock
    counts := fun name =>
      if name = entry then
        some ((clock : ℝ) + Real.log (Real.exp ((clock : ℝ) - count) + 1))
      else fc.counts name }

/-- matcher.rs:301-316 `FrequencyCounter::scores` (called `score` at its
use site matcher.rs:111): read the clock `c` and the entry's count
(defaulting to `c` when the entry is absent), and return `exp(c - count)`. -/
noncomputable def FrequencyCounter.score (fc : FrequencyCounter) (entry : String) : ℝ :=
  let c : ℝ := (fc.clock : ℝ)
  let count := (fc.counts entry).getD c
  Real.exp (c - count)

/-- The per-line scoring closure at matcher.rs:110-143, with the skim
matcher abstract (`fuzzy line_text pattern` models
`skim_matcher.fuzzy_match(line, pattern)`).  String lengths are byte
lengths (`str::len`).  The frecency lookup is modelled as pure (its sqlite
errors are environmental), so the closure returns `Option` instead of
`Result<Option<_>>`. -/
noncomputable def Matcher.scoreLine (fuzzy : String → String → Option Int)
    (fc : FrequencyCounter) (query context : String) (i : Nat)
    (line : OwnedLine) : Option (Match ℝ) :=
  let frequency_score := fc.score line.path
  let context_score := Real.exp ((query.utf8ByteSize : ℝ) * (-0.5)) *
    (if 0 < context.utf8ByteSize then
      ((fuzzy line.line context).getD 0 : ℝ) / (line.line.utf8ByteSize : ℝ)
    else 0)
  match fuzzy line.line query with
  | some query_match =>
    let query_score :=
      if 0 < query.utf8ByteSize then (query_match : ℝ) / (line.line.utf8ByteSize : ℝ)
      else 0
    some { index := i
           score := frequency_score + context_score + query_score
           context_score := context_score
           frequency_score := frequency_score
           query_score := query_score }
  | none => none

/-- matcher.rs:99-172 `Matcher::best_matches` with its actual scoring
closure plugged in. -/
noncomputable def Matcher.best_matches (fuzzy : String → String → Option Int)
    (fc : FrequencyCounter) (query context : String) (num_results : Nat)
    (lines : List OwnedLine) : Except Unit (List (Match ℝ)) :=
  Sylph.best_matches (fun i l => .ok (Matcher.scoreLine fuzzy fc query context i l))
    num_results lines

/-- The ordering the specification documents for result lists:
score strictly descending, ties broken by index ascending. -/
def specOrdered (l : List (Match α)) : Prop :=
  l.Pairwise (fun a b => b.score < a.score ∨ (a.score = b.score ∧ a.index < b.index))

/-!
Model of the `ThreadedMatcher` worker loop (ffi.rs:59-98) and of the host
counter that assigns command ids (ffi.rs:106-120).

The worker is a single thread that handles queued commands in order.  While
a `Query` runs, the worker repeatedly checks `command_recv.len() == 0`
before each `process(100)` call and stops as soon as the channel is
non-empty.  The environment schedule is abstracted per command:
* `steps` — how many `process` calls this query needs to reach `Done`;
* `failAt` — the index of the `process` call that returns `Err`, if any;
* `interrupt` — the index of the channel check at which the channel is
  first seen non-empty (the channel stays non-empty from then on), if any.
An emitted result is `(command_id, Bool)` with `true` for `Ok(results)`
and `false` for `Err`.
-/

/-- A command as enqueued by the host: ffi.rs:37-46 `Command`
(query payloads are abstracted to their scheduling behaviour). -/
inductive CmdSpec where
  | query (steps : Nat) (failAt : Option Nat) (interrupt : Option Nat)
  | update
deriving DecidableEq

/-- Whether `command_recv.len() == 0` is false at the `t`-th check of the
running query's loop. -/
def channelPending (interrupt : Option Nat) (t : Nat) : Bool :=
  match interrupt with
  | some i => decide (i ≤ t)
  | none => false

/-- The `while command_recv.len() == 0 && progress == Working` loop at
ffi.rs:83-89, followed by the sends at ffi.rs:87-93: `some true` when the
query completes (Ok result sent), `some false` when a `process` call errs
(Err sent), `none` when the query is abandoned with no send.  `remaining`
counts the successful `process` calls still needed to reach `Done`; `t` is
the current loop iteration. -/
def queryLoop (interrupt failAt : Option Nat) : Nat → Nat → Option Bool
  | _, 0 => some true
  | t, r + 1 =>
    if channelPending interrupt t then none
    else if failAt = some t then some false
    else queryLoop interrupt failAt (t + 1) r

/-- The worker loop at ffi.rs:67-97 together with the host id counter at
ffi.rs:106-120: commands are handled in order, each `Query` is assigned the
next id (`command_num` is incremented before use, so ids start at 1), and
`Update` produces no result.  The `Matcher::new` failure path
(ffi.rs:62-65), which sends a single `(0, Err)` before this loop starts and
kills the worker, is not modelled: it emits id 0 exactly once and query ids
start at 1, so it cannot add a second result for any id. -/
def ThreadedMatcher.run : List CmdSpec → Nat → List (Nat × Bool)
  | [], _ => []
  | .update :: rest, n => ThreadedMatcher.run rest n
  | .query steps failAt interrupt :: rest, n =>
    match queryLoop interrupt failAt 0 steps with
    | some ok => (n + 1, ok) :: ThreadedMatcher.run rest (n + 1)
    | none => ThreadedMatcher.run rest (n + 1)

/-!
Concrete instances used by the closed counterexample and witness theorems.
`qScorer` is a scorer over `ℚ` whose lines are their own query scores: line
`x` at chunk position `i` yields a match of score `x` at index `i` (the
skim matcher and the frecency counter can realise any such score profile,
since query scores range densely and frecency adds arbitrary reals).
-/

/-- A concrete scorer over `ℚ` for closed runs: each line scores itself. -/
def qScorer : Nat → ℚ → Except Unit (Option (Match ℚ)) :=
  fun i x => .ok (some ⟨i, x, 0, 0, 0⟩)

/-- A scorer over `ℚ` whose first line fails to score. -/
def qScorerErr : Nat → ℚ → Except Unit (Option (Match ℚ)) :=
  fun i x => if i = 0 then .error () else .ok (some ⟨i, x, 0, 0, 0⟩)

/-- Whether a `Result` is an `Err`. -/
def isErr : Except E (List (Match α)) → Bool
  | .error _ => true
  | .ok _ => false

/-- The binary-heap shape invariant of the `BinaryHeap` data vector,
restricted to positions below `fin`: the parent `(j-1)/2` of every node `j`
has a smaller-or-equal score (the vector is a min-heap in score, i.e. a
max-heap under `MinComparator`).  Reads use `getD` with a universally
quantified default, which in-range positions never consult. -/
def IsMinHeapBelow (l : List (Match α)) (fin : Nat) : Prop :=
  ∀ (d : Match α) (j : Nat), 0 < j → j < fin →
    (l.getD ((j - 1) / 2) d).score ≤ (l.getD j d).score

/-- The heap invariant on the whole data vector. -/
def IsMinHeap (l : List (Match α)) : Prop :=
  IsMinHeapBelow l l.length

/-- The session states reachable from `IncrementalMatcher::new` by
successful `process` calls. -/
inductive Reaches (scorer : Nat → L → Except E (Option (Match α)))
    (num_results : Nat) (lines : List L) : IncrementalMatcher α → Prop
  | init : Reaches scorer num_results lines .new
  | step {s s' : IncrementalMatcher α} {n : Nat} {p : Progress α} :
      Reaches scorer num_results lines s →
      IncrementalMatcher.process scorer num_results lines s n = .ok (s', p) →
      Reaches scorer num_results lines s'

end Sylph

namespace Sylph

variable {α : Type} [LinearOrder α] {L E : Type}

/-! Helper lemmas about the selection machinery. -/

/-- One `foldStep` only adds the offered match: every member of the result
was already in the buffer or is the new match. -/
theorem mem_foldStep {k : Nat} {entries : List (Match α)} {x m : Match α}
    (h : m ∈ foldStep k entries x) : m ∈ entries ∨ m = x := by
  unfold foldStep at h
  split at h
  · rcases List.mem_append.1 h with h1 | h1
    · exact Or.inl h1
    · exact Or.inr (List.mem_singleton.1 h1)
  · split at h
    · rcases List.mem_or_eq_of_mem_set h with h1 | h1
      · exact Or.inl h1
      · exact Or.inr h1
    · exact Or.inl h

/-- Members of the selection fold come from the initial buffer or from the
offered matches. -/
theorem mem_foldl_foldStep {k : Nat} {l : List (Match α)} :
    ∀ {init : List (Match α)} {m : Match α},
      m ∈ l.foldl (foldStep k) init → m ∈ init ∨ m ∈ l := by
  induction l with
  | nil => intro init m h; exact Or.inl h
  | cons x xs ih =>
    intro init m h
    rcases ih h with h1 | h1
    · rcases mem_foldStep h1 with h2 | h2
      · exact Or.inl h2
      · exact Or.inr (h2 ▸ List.mem_cons_self x xs)
    · exact Or.inr (List.mem_cons_of_mem _ h1)

/-- `processResults` over an error-free scorer is the plain map. -/
theorem processResults_pure (g : L → Option (Match α)) :
    ∀ l : List L, processResults (E := E) (fun x => .ok (g x)) l = .ok (l.map g) := by
  intro l
  induction l with
  | nil => rfl
  | cons x xs ih => simp [processResults, ih]

/-- Every element of a successful `processResults` run is the value of the
scorer on some input item. -/
theorem processResults_ok {f : L → Except E (Option (Match α))} :
    ∀ {l : List L} {ys}, processResults f l = .ok ys → ∀ y ∈ ys, ∃ x ∈ l, f x = .ok y := by
  intro l
  induction l with
  | nil =>
    intro ys h y hy
    unfold processResults at h
    obtain rfl : ([] : List (Option (Match α))) = ys := by injection h
    exact absurd hy (List.not_mem_nil y)
  | cons x xs ih =>
    intro ys h y hy
    unfold processResults at h
    split at h
    · exact absurd h (by simp)
    case _ y0 hx =>
      split at h
      · exact absurd h (by simp)
      case _ ys0 hrest =>
        obtain rfl : y0 :: ys0 = ys := by injection h
        rcases List.mem_cons.1 hy with h1 | h1
        · exact ⟨x, List.mem_cons_self x xs, h1 ▸ hx⟩
        · obtain ⟨x', hx', hfx'⟩ := ih hrest y h1
          exact ⟨x', List.mem_cons_of_mem _ hx', hfx'⟩

/-- If the scorer fails on any input item, `processResults`
short-circuits into some error. -/
theorem processResults_error {f : L → Except E (Option (Match α))} {e : E} :
    ∀ {l : List L} {x : L}, x ∈ l → f x = .error e →
      ∃ e', processResults f l = .error e' := by
  intro l
  induction l with
  | nil => intro x hx; exact absurd hx (List.not_mem_nil x)
  | cons z zs ih =>
    intro x hx hfx
    rcases List.mem_cons.1 hx with h1 | h1
    · exact ⟨e, by unfold processResults; rw [h1] at hfx; rw [hfx]⟩
    · unfold processResults
      cases hz : f z with
      | error e0 => exact ⟨e0, rfl⟩
      | ok y =>
        obtain ⟨e', he'⟩ := ih h1 hfx
        rw [he']
        exact ⟨e', rfl⟩

/-- Every match returned by `best_matches` was emitted by the scorer at its
own enumeration position. -/
theorem mem_best_matches {scorer : Nat → L → Except E (Option (Match α))} {k : Nat}
    {lines : List L} {res : List (Match α)} {m : Match α}
    (h : best_matches scorer k lines = .ok res) (hm : m ∈ res) :
    ∃ i l, lines[i]? = some l ∧ scorer i l = .ok (some m) := by
  unfold best_matches at h
  split at h
  · exact absurd h (by simp)
  case _ opts heq =>
    obtain rfl : _ = res := by injection h
    have hm1 : m ∈ ((opts.filterMap id).foldl (foldStep k) []).insertionSort scoreGe :=
      (List.take_sublist _ _).subset hm
    have hm2 : m ∈ (opts.filterMap id).foldl (foldStep k) [] :=
      (List.mem_insertionSort scoreGe).1 hm1
    rcases mem_foldl_foldStep hm2 with h1 | h1
    · exact absurd h1 (List.not_mem_nil m)
    · obtain ⟨o, ho, hom⟩ := List.mem_filterMap.1 h1
      obtain rfl : o = some m := hom
      obtain ⟨p, hp, hfp⟩ := processResults_ok heq _ ho
      exact ⟨p.1, p.2, List.mem_enum_iff_getElem?.1 hp, hfp⟩

/-- A successful `best_matches` result is sorted by score descending
(`scoreGe` is the reversed score comparison the sort uses). -/
theorem best_matches_sorted {scorer : Nat → L → Except E (Option (Match α))} {k : Nat}
    {lines : List L} {res : List (Match α)}
    (h : best_matches scorer k lines = .ok res) : res.Sorted scoreGe := by
  unfold best_matches at h
  split at h
  · exact absurd h (by simp)
  · obtain rfl : _ = res := by injection h
    exact (List.sorted_insertionSort scoreGe _).sublist (List.take_sublist _ _)

/-- Whenever `process` reports `Done`, the returned session has scored every
line and the reported results are the sorted heap of that session. -/
theorem process_done_inv {scorer : Nat → L → Except E (Option (Match α))}
    {num_results : Nat} {lines : List L} {s s' : IncrementalMatcher α}
    {r : List (Match α)} {n : Nat}
    (h : IncrementalMatcher.process scorer num_results lines s n = .ok (s', .done r)) :
    s'.progressed_to = lines.length ∧ r = intoSortedVec s'.results := by
  unfold IncrementalMatcher.process at h
  split at h
  case isTrue hp =>
    simp only [Except.ok.injEq, Prod.mk.injEq, Progress.done.injEq] at h
    obtain ⟨hs, hr⟩ := h
    subst hs
    exact ⟨hp, hr.symm⟩
  case isFalse hp =>
    dsimp only at h
    split at h
    · exact absurd h (by simp)
    · split at h
      case isTrue hend =>
        simp only [Except.ok.injEq, Prod.mk.injEq, Progress.done.injEq] at h
        obtain ⟨hs, hr⟩ := h
        subst hs
        exact ⟨hend, hr.symm⟩
      case isFalse hend =>
        simp only [Except.ok.injEq, Prod.mk.injEq] at h
        exact absurd h.2 (by simp)

/-! Helper lemmas for positional reads and writes and for the heap
comparator, used by the binary-heap invariant proofs. -/

/-- An in-range `getD` is the plain element. -/
theorem getD_of_lt (l : List (Match α)) (d : Match α) {j : Nat}
    (h : j < l.length) : l.getD j d = l[j] := by
  rw [List.getD_eq_getElem?_getD, List.getElem?_eq_getElem h]
  rfl

/-- An in-range `getD` does not depend on the default. -/
theorem getD_indep {l : List (Match α)} {j : Nat} (d d' : Match α)
    (h : j < l.length) : l.getD j d = l.getD j d' := by
  rw [getD_of_lt l d h, getD_of_lt l d' h]

/-- Reading a written position. -/
theorem getD_set_self {l : List (Match α)} {i : Nat} {a d : Match α}
    (h : i < l.length) : (l.set i a).getD i d = a := by
  rw [List.getD_eq_getElem?_getD, List.getElem?_set_self]
  · simp
  · simpa using h

/-- Reading an untouched position. -/
theorem getD_set_ne {l : List (Match α)} {i j : Nat} {a d : Match α}
    (h : i ≠ j) : (l.set i a).getD j d = l.getD j d := by
  rw [List.getD_eq_getElem?_getD, List.getElem?_set_ne h, ← List.getD_eq_getElem?_getD]

/-- The heap comparator calls `a` greater exactly when its score is
smaller. -/
theorem hcmp_eq_gt_iff {a b : Match α} : hcmp a b = .gt ↔ a.score < b.score := by
  unfold hcmp mcmp fcmp
  split
  · simp only [reduceCtorEq, false_iff]
    next hlt => exact not_lt_of_lt hlt
  · split
    · simp only [true_iff]
      assumption
    · simp only [reduceCtorEq, false_iff]
      assumption

/-- The heap comparator calls `a` less exactly when its score is
greater. -/
theorem hcmp_eq_lt_iff {a b : Match α} : hcmp a b = .lt ↔ b.score < a.score := by
  unfold hcmp mcmp fcmp
  split
  · simp only [true_iff]
    assumption
  · split
    · simp only [reduceCtorEq, false_iff]
      next h2 h1 => exact not_lt_of_lt h1
    · simp only [reduceCtorEq, false_iff]
      assumption

theorem hcmp_ne_gt_iff {a b : Match α} : hcmp a b ≠ .gt ↔ b.score ≤ a.score := by
  rw [Ne, hcmp_eq_gt_iff, not_lt]

theorem hcmp_ne_lt_iff {a b : Match α} : hcmp a b ≠ .lt ↔ a.score ≤ b.score := by
  rw [Ne, hcmp_eq_lt_iff, not_lt]

/-- In a heap the root has the smallest score among positions below
`fin`. -/
theorem heap_root_min {l : List (Match α)} {fin : Nat}
    (hh : IsMinHeapBelow l fin) (d : Match α) :
    ∀ j, j < fin → (l.getD 0 d).score ≤ (l.getD j d).score := by
  intro j
  induction j using Nat.strong_induction_on with
  | _ j ih =>
    intro hj
    rcases Nat.eq_zero_or_pos j with rfl | hpos
    · exact le_refl _
    · have hparent := hh d j hpos hj
      have hpj : (j - 1) / 2 < j := by
        have := Nat.div_le_self (j - 1) 2
        omega
      exact le_trans (ih _ hpj (lt_trans hpj hj)) hparent

end Sylph

/-- Claim C9: once `process` has returned `Done(results)` for a session,
every subsequent `process` call on that session returns the same
`Done(results)` and leaves the session state unchanged. -/
theorem c9_process_after_done_idempotent {α : Type} [LinearOrder α] {L E : Type}
    (scorer : Nat → L → Except E (Option (Sylph.Match α))) (num_results : Nat)
    (lines : List L) (s s' : Sylph.IncrementalMatcher α)
    (r : List (Sylph.Match α)) (n m : Nat)
    (h : Sylph.IncrementalMatcher.process scorer num_results lines s n = .ok (s', .done r)) :
    Sylph.IncrementalMatcher.process scorer num_results lines s' m = .ok (s', .done r) := by
  obtain ⟨hp, hr⟩ := Sylph.process_done_inv h
  unfold Sylph.IncrementalMatcher.process
  rw [if_pos hp, hr]

/-- Witness for C9 at a concrete session: the two-line tie session reaches
`Done` after one chunk of size 2, and a later `process` call replays the
same `Done` with the state untouched. -/
theorem c9_witness :
    Sylph.IncrementalMatcher.process Sylph.qScorer 2 [(5 : ℚ), 5]
      ⟨2, [⟨0, 5, 0, 0, 0⟩, ⟨1, 5, 0, 0, 0⟩]⟩ 7 =
      .ok (⟨2, [⟨0, 5, 0, 0, 0⟩, ⟨1, 5, 0, 0, 0⟩]⟩,
        .done [⟨1, 5, 0, 0, 0⟩, ⟨0, 5, 0, 0, 0⟩]) :=
  c9_process_after_done_idempotent Sylph.qScorer 2 [(5 : ℚ), 5] ⟨0, []⟩
    ⟨2, [⟨0, 5, 0, 0, 0⟩, ⟨1, 5, 0, 0, 0⟩]⟩ [⟨1, 5, 0, 0, 0⟩, ⟨0, 5, 0, 0, 0⟩] 2 7 rfl

/-- Claim C10: with unscored lines remaining, a `process` call with chunk
size 0 returns `Working` and leaves the session state unchanged (hence a
session driven only with chunk size 0 never reaches `Done`). -/
theorem c10_chunk_zero_never_done {α : Type} [LinearOrder α] {L E : Type}
    (scorer : Nat → L → Except E (Option (Sylph.Match α))) (num_results : Nat)
    (lines : List L) (s : Sylph.IncrementalMatcher α)
    (h : s.progressed_to < lines.length) :
    Sylph.IncrementalMatcher.process scorer num_results lines s 0 = .ok (s, .working) := by
  have hne : s.progressed_to ≠ lines.length := Nat.ne_of_lt h
  have hmin : min (s.progressed_to + 0) lines.length = s.progressed_to :=
    by omega
  unfold Sylph.IncrementalMatcher.process
  rw [if_neg hne]
  simp only [hmin, Nat.sub_self, List.take_zero]
  have hbm : Sylph.best_matches scorer num_results ([] : List L) = .ok [] := by
    simp [Sylph.best_matches, Sylph.processResults]
  rw [hbm]
  simp only [List.foldl_nil]
  rw [if_neg hne]

/-- Witness for C10 at a concrete session. -/
theorem c10_witness :
    Sylph.IncrementalMatcher.process Sylph.qScorer 2 [(5 : ℚ), 5] ⟨0, []⟩ 0 =
      .ok (⟨0, []⟩, .working) :=
  c10_chunk_zero_never_done Sylph.qScorer 2 [(5 : ℚ), 5] ⟨0, []⟩ (by decide)

/-- Claim C1 fails on the code: with `k = 2` and three matching lines of
scores 2, 1, 3 (indices 0, 1, 2), `best_matches` returns the matches with
scores 3 and 1, dropping the emitted score-2 match, because the full buffer
replaces the *first* strictly smaller entry rather than the worst one.  The
two highest-scoring matches would be those with scores 3 and 2. -/
theorem c1_fold_keeps_wrong_match :
    Sylph.best_matches Sylph.qScorer 2 [(2 : ℚ), 1, 3] =
      .ok [⟨2, 3, 0, 0, 0⟩, ⟨1, 1, 0, 0, 0⟩] ∧
    Sylph.qScorer 0 2 = .ok (some ⟨0, 2, 0, 0, 0⟩) ∧
    (1 : ℚ) < 2 ∧
    (⟨0, 2, 0, 0, 0⟩ : Sylph.Match ℚ) ∉
      [(⟨2, 3, 0, 0, 0⟩ : Sylph.Match ℚ), ⟨1, 1, 0, 0, 0⟩] :=
  ⟨rfl, rfl, by norm_num, by decide⟩

/-- Claim C2 fails on the code: on the same three lines with `k = 2`,
driving the incremental session with chunk size 1 yields `Done` of the
matches with scores 3 and 2 (the heap keeps the true top-2), while the
batch `best_matches` call returns the matches with scores 3 and 1. -/
theorem c2_incremental_differs_from_batch :
    Sylph.IncrementalMatcher.process Sylph.qScorer 2 [(2 : ℚ), 1, 3] ⟨0, []⟩ 1 =
      .ok (⟨1, [⟨0, 2, 0, 0, 0⟩]⟩, .working) ∧
    Sylph.IncrementalMatcher.process Sylph.qScorer 2 [(2 : ℚ), 1, 3]
      ⟨1, [⟨0, 2, 0, 0, 0⟩]⟩ 1 =
      .ok (⟨2, [⟨1, 1, 0, 0, 0⟩, ⟨0, 2, 0, 0, 0⟩]⟩, .working) ∧
    Sylph.IncrementalMatcher.process Sylph.qScorer 2 [(2 : ℚ), 1, 3]
      ⟨2, [⟨1, 1, 0, 0, 0⟩, ⟨0, 2, 0, 0, 0⟩]⟩ 1 =
      .ok (⟨3, [⟨0, 2, 0, 0, 0⟩, ⟨2, 3, 0, 0, 0⟩]⟩,
        .done [⟨2, 3, 0, 0, 0⟩, ⟨0, 2, 0, 0, 0⟩]) ∧
    Sylph.best_matches Sylph.qScorer 2 [(2 : ℚ), 1, 3] =
      .ok [⟨2, 3, 0, 0, 0⟩, ⟨1, 1, 0, 0, 0⟩] ∧
    [(⟨2, 3, 0, 0, 0⟩ : Sylph.Match ℚ), ⟨0, 2, 0, 0, 0⟩] ≠
      [(⟨2, 3, 0, 0, 0⟩ : Sylph.Match ℚ), ⟨1, 1, 0, 0, 0⟩] :=
  ⟨rfl, rfl, rfl, rfl, by decide⟩

/-- Counterexample to claim C4: with `k = 2` and matching scores 0, 1, 1,
the replacement in the selection fold leaves the two equal-score matches in
index order 2, 1, and the score-only sort keeps them there, so the returned
list has equal scores in index-descending order. -/
theorem c4_counterexample :
    Sylph.best_matches Sylph.qScorer 2 [(0 : ℚ), 1, 1] =
      .ok [⟨2, 1, 0, 0, 0⟩, ⟨1, 1, 0, 0, 0⟩] ∧
    ¬ Sylph.specOrdered [(⟨2, 1, 0, 0, 0⟩ : Sylph.Match ℚ), ⟨1, 1, 0, 0, 0⟩] :=
  ⟨rfl, by simp [Sylph.specOrdered]⟩

namespace Sylph

/-- A match emitted by the scoring closure carries its own enumeration
index, and can only exist when the fuzzy matcher matched the query. -/
theorem scoreLine_some {fuzzy : String → String → Option Int}
    {fc : FrequencyCounter} {query context : String} {i : Nat}
    {line : OwnedLine} {m : Match ℝ}
    (h : Matcher.scoreLine fuzzy fc query context i line = some m) :
    m.index = i ∧ fuzzy line.line query ≠ none := by
  unfold Matcher.scoreLine at h
  rcases hf : fuzzy line.line query with _ | qm
  · rw [hf] at h
    simp at h
  · rw [hf] at h
    dsimp only at h
    have hm : m.index = i := by
      have := Option.some.inj h
      rw [← this]
    exact ⟨hm, by simp [hf]⟩

end Sylph

/-- Claim C6: if the fuzzy matcher finds no match of the (non-empty) query
against a line's text, that line's index appears nowhere in the results of
`best_matches`, regardless of its frecency score. -/
theorem c6_no_fuzzy_match_excluded (fuzzy : String → String → Option Int)
    (fc : Sylph.FrequencyCounter) (query context : String) (k : Nat)
    (lines : List Sylph.OwnedLine) (i : Nat) (res : List (Sylph.Match ℝ))
    (_hq : query ≠ "") (hi : i < lines.length)
    (hf : fuzzy lines[i].line query = none)
    (hres : Sylph.Matcher.best_matches fuzzy fc query context k lines = .ok res) :
    i ∉ res.map Sylph.Match.index := by
  intro hmem
  obtain ⟨m, hm, hidx⟩ := List.mem_map.1 hmem
  unfold Sylph.Matcher.best_matches at hres
  obtain ⟨j, l, hjl, hs⟩ := Sylph.mem_best_matches hres hm
  have hs' : Sylph.Matcher.scoreLine fuzzy fc query context j l = some m :=
    Except.ok.inj hs
  obtain ⟨hj, hne⟩ := Sylph.scoreLine_some hs'
  have hji : j = i := by rw [← hj, hidx]
  subst hji
  have hl : l = lines[j] := by
    have h2 : lines[j]? = some lines[j] := List.getElem?_eq_getElem hi
    rw [h2] at hjl
    exact (Option.some.inj hjl).symm
  subst hl
  exact hne hf

/-- Witness for C6: with a fuzzy matcher that rejects everything, the only
line is excluded and the result list is empty. -/
theorem c6_witness :
    (0 : Nat) ∉ List.map Sylph.Match.index ([] : List (Sylph.Match ℝ)) :=
  c6_no_fuzzy_match_excluded (fun _ _ => none) Sylph.FrequencyCounter.new "a" "" 1
    [⟨"p", "x"⟩] 0 [] (by decide) (by decide) rfl rfl

/-- Claim C8 as amended: a line on which the fuzzy matcher finds no match
is skipped without error, but if scoring any line returns an error,
`best_matches` aborts the whole call with an error instead of skipping that
line. -/
theorem c8_amended_error_aborts_call {α : Type} [LinearOrder α] {L E : Type}
    (scorer : Nat → L → Except E (Option (Sylph.Match α))) (k : Nat)
    (lines : List L) (i : Nat) (e : E) (hi : i < lines.length)
    (hf : scorer i lines[i] = .error e) :
    Sylph.isErr (Sylph.best_matches scorer k lines) = true := by
  have hmem : (i, lines[i]) ∈ lines.enum := by
    apply List.mem_enum_iff_getElem?.2
    exact List.getElem?_eq_getElem hi
  obtain ⟨e', he'⟩ :=
    Sylph.processResults_error (f := fun p => scorer p.1 p.2) hmem hf
  unfold Sylph.best_matches
  rw [he']
  rfl

/-- Witness for the amended C8: a scorer failing on line 0 aborts the whole
call. -/
theorem c8_witness :
    Sylph.isErr (Sylph.best_matches Sylph.qScorerErr 1 [(2 : ℚ), 1]) = true :=
  c8_amended_error_aborts_call Sylph.qScorerErr 1 [(2 : ℚ), 1] 0 () (by decide) rfl

/-- Counterexample to claim C8 as stated: with a scorer that errs on line 0
of two lines, `best_matches` returns `Err` rather than succeeding with the
match of the remaining line. -/
theorem c8_counterexample :
    Sylph.best_matches Sylph.qScorerErr 1 [(2 : ℚ), 1] = .error () ∧
    (Except.error () : Except Unit (List (Sylph.Match ℚ))) ≠
      .ok [⟨1, 1, 0, 0, 0⟩] :=
  ⟨rfl, fun h => Except.noConfusion h⟩

namespace Sylph

/-! Helper lemmas about the frecency counter (matcher.rs:263-317). -/

/-- A frecency score is `exp` of something, hence strictly positive —
in particular it is never the `0.0` of the specification. -/
theorem score_pos (fc : FrequencyCounter) (p : String) : 0 < fc.score p :=
  Real.exp_pos _

/-- For an entry absent from the counts table, the count defaults to the
current clock and the score is `exp 0 = 1`. -/
theorem score_of_counts_none {fc : FrequencyCounter} {p : String}
    (h : fc.counts p = none) : fc.score p = 1 := by
  simp [FrequencyCounter.score, h]

/-- For a stored entry the score is `exp(clock - count)`. -/
theorem score_of_counts_some {fc : FrequencyCounter} {p : String} {K : ℝ}
    (h : fc.counts p = some K) : fc.score p = Real.exp ((fc.clock : ℝ) - K) := by
  simp [FrequencyCounter.score, h]

/-- `update` increments the clock. -/
theorem clock_update (fc : FrequencyCounter) (q : String) :
    (fc.update q).clock = fc.clock + 1 := rfl

/-- `update` stores `clock' + ln(exp(clock' - prev) + 1)` for the updated
entry, where `clock'` is the incremented clock and `prev` the previous
count (0 when absent). -/
theorem counts_update_self (fc : FrequencyCounter) (p : String) :
    (fc.update p).counts p = some (((fc.clock : ℝ) + 1) +
      Real.log (Real.exp (((fc.clock : ℝ) + 1) - (fc.counts p).getD 0) + 1)) := by
  simp only [FrequencyCounter.update, if_true]
  congr 1
  push_cast
  ring

/-- `update` leaves every other entry's count unchanged. -/
theorem counts_update_other {fc : FrequencyCounter} {p q : String} (h : p ≠ q) :
    (fc.update q).counts p = fc.counts p := by
  simp only [FrequencyCounter.update]
  rw [if_neg h]

/-- Immediately after `update p`, the score of `p` is
`1 / (exp(clock' - prev) + 1)`. -/
theorem score_update_self (fc : FrequencyCounter) (p : String) :
    (fc.update p).score p =
      (Real.exp (((fc.clock : ℝ) + 1) - (fc.counts p).getD 0) + 1)⁻¹ := by
  have hpos : 0 < Real.exp (((fc.clock : ℝ) + 1) - (fc.counts p).getD 0) + 1 := by
    positivity
  rw [score_of_counts_some (counts_update_self fc p), clock_update]
  push_cast
  rw [show ((fc.clock : ℝ) + 1 - ((fc.clock : ℝ) + 1 +
      Real.log (Real.exp ((fc.clock : ℝ) + 1 - (fc.counts p).getD 0) + 1))) =
      -(Real.log (Real.exp ((fc.clock : ℝ) + 1 - (fc.counts p).getD 0) + 1)) from by ring]
  rw [Real.exp_neg, Real.exp_log hpos]

end Sylph

/-- Counterexample to claim C3: a path that has never been updated scores
`exp(clock - clock) = 1`, not the `0.0` the specification requires. -/
theorem c3_counterexample :
    Sylph.FrequencyCounter.new.score "p" = 1 ∧ (1 : ℝ) ≠ 0 :=
  ⟨Sylph.score_of_counts_none rfl, one_ne_zero⟩

/-- Claim C3 as amended: `score(p)` returns `exp(clock - count_p)` where
`count_p` defaults to the current clock when `p` is not in the cache — so
an absent path scores exactly 1 (never 0), every score is strictly
positive, and immediately after `update(p)` the stored count makes the
score `1 / (exp(clock' - prev) + 1)` rather than `exp(t_p - clock)`. -/
theorem c3_amended_score_behaviour (fc : Sylph.FrequencyCounter) (p : String) :
    0 < fc.score p ∧
    (fc.counts p = none → fc.score p = 1) ∧
    (fc.update p).score p =
      (Real.exp (((fc.clock : ℝ) + 1) - (fc.counts p).getD 0) + 1)⁻¹ :=
  ⟨Sylph.score_pos fc p, fun h => Sylph.score_of_counts_none h,
    Sylph.score_update_self fc p⟩

/-- Witness for the amended C3: on a fresh counter an absent path scores
1. -/
theorem c3_witness : Sylph.FrequencyCounter.new.score "q" = 1 :=
  (c3_amended_score_behaviour Sylph.FrequencyCounter.new "q").2.1 rfl

/-- Claim C7 fails on the code, in both directions: starting from a fresh
counter, `update("p")` strictly *decreases* `score("p")` (from 1 to
`1/(e+1)`), and a subsequent `update("q")` with `q ≠ p` strictly
*increases* `score("p")` (multiplies it by `e`). -/
theorem c7_frecency_moves_wrong_way :
    (Sylph.FrequencyCounter.new.update "p").score "p" <
      Sylph.FrequencyCounter.new.score "p" ∧
    (Sylph.FrequencyCounter.new.update "p").score "p" <
      ((Sylph.FrequencyCounter.new.update "p").update "q").score "p" := by
  have hpq : "p" ≠ "q" := by decide
  have h1 := Sylph.counts_update_self Sylph.FrequencyCounter.new "p"
  constructor
  · rw [Sylph.score_update_self, Sylph.score_of_counts_none rfl]
    apply inv_lt_one_of_one_lt₀
    have := Real.exp_pos (((Sylph.FrequencyCounter.new.clock : ℝ) + 1) -
      ((Sylph.FrequencyCounter.new.counts "p").getD 0))
    linarith
  · rw [Sylph.score_of_counts_some h1,
      Sylph.score_of_counts_some (by rw [Sylph.counts_update_other hpq]; exact h1)]
    apply Real.exp_lt_exp.2
    rw [Sylph.clock_update, Sylph.clock_update, Sylph.clock_update]
    push_cast
    linarith

namespace Sylph

/-! Helper lemmas about the worker/dispatcher model (ffi.rs:59-133). -/

/-- Every result the worker emits carries an id strictly greater than the
host counter value at which the run started (ids are assigned by
incrementing the counter before use). -/
theorem run_id_lt (cmds : List CmdSpec) : ∀ (n : Nat) (r : Nat × Bool),
    r ∈ ThreadedMatcher.run cmds n → n < r.1 := by
  induction cmds with
  | nil => intro n r h; simp [ThreadedMatcher.run] at h
  | cons c rest ih =>
    intro n r h
    cases c with
    | update =>
      rw [show ThreadedMatcher.run (.update :: rest) n = ThreadedMatcher.run rest n from rfl] at h
      exact ih n r h
    | query steps failAt interrupt =>
      rcases hq : queryLoop interrupt failAt 0 steps with _ | ok
      · rw [show ThreadedMatcher.run (.query steps failAt interrupt :: rest) n =
            (match queryLoop interrupt failAt 0 steps with
             | some ok => (n + 1, ok) :: ThreadedMatcher.run rest (n + 1)
             | none => ThreadedMatcher.run rest (n + 1)) from rfl, hq] at h
        exact Nat.lt_of_succ_lt (ih (n + 1) r h)
      · rw [show ThreadedMatcher.run (.query steps failAt interrupt :: rest) n =
            (match queryLoop interrupt failAt 0 steps with
             | some ok => (n + 1, ok) :: ThreadedMatcher.run rest (n + 1)
             | none => ThreadedMatcher.run rest (n + 1)) from rfl, hq] at h
        rcases List.mem_cons.1 h with h1 | h1
        · rw [h1]; exact Nat.lt_succ_self n
        · exact Nat.lt_of_succ_lt (ih (n + 1) r h1)

/-- Over a whole run, any fixed id occurs in at most one emitted result:
each query handling sends at most once, and distinct queries get distinct
(strictly increasing) ids. -/
theorem run_countP_le_one (cmds : List CmdSpec) : ∀ (n id : Nat),
    (ThreadedMatcher.run cmds n).countP (fun r => decide (r.1 = id)) ≤ 1 := by
  induction cmds with
  | nil => intro n id; simp [ThreadedMatcher.run]
  | cons c rest ih =>
    intro n id
    cases c with
    | update => exact ih n id
    | query steps failAt interrupt =>
      rcases hq : queryLoop interrupt failAt 0 steps with _ | ok
      · rw [show ThreadedMatcher.run (.query steps failAt interrupt :: rest) n =
            (match queryLoop interrupt failAt 0 steps with
             | some ok => (n + 1, ok) :: ThreadedMatcher.run rest (n + 1)
             | none => ThreadedMatcher.run rest (n + 1)) from rfl, hq]
        exact ih (n + 1) id
      · rw [show ThreadedMatcher.run (.query steps failAt interrupt :: rest) n =
            (match queryLoop interrupt failAt 0 steps with
             | some ok => (n + 1, ok) :: ThreadedMatcher.run rest (n + 1)
             | none => ThreadedMatcher.run rest (n + 1)) from rfl, hq]
        rw [List.countP_cons]
        by_cases hid : n + 1 = id
        · have hz : (ThreadedMatcher.run rest (n + 1)).countP
              (fun r => decide (r.1 = id)) = 0 := by
            rw [List.countP_eq_zero]
            intro a ha
            have := run_id_lt rest (n + 1) a ha
            simp only [decide_eq_true_eq]
            omega
          rw [hz]
          simp [hid]
        · have hd : (decide ((n + 1, ok).1 = id)) = false := by
            simp only [decide_eq_false_iff_not]
            exact hid
          rw [hd]
          simpa using ih (n + 1) id

/-- A query whose channel becomes non-empty at check `i`, before it is done
(`i < remaining steps`) and before any failing `process` call, exits its
loop as `Working` and sends nothing. -/
theorem queryLoop_superseded : ∀ (r t i : Nat) (failAt : Option Nat),
    t ≤ i → i < t + r → (∀ f, failAt = some f → i ≤ f) →
    queryLoop (some i) failAt t r = none := by
  intro r
  induction r with
  | zero => intro t i failAt h1 h2 _; omega
  | succ r ih =>
    intro t i failAt h1 h2 h3
    unfold queryLoop
    by_cases hti : i ≤ t
    · have hp : channelPending (some i) t = true := by
        simp [channelPending, hti]
      simp [hp]
    · have hp : channelPending (some i) t = false := by
        simp only [channelPending, decide_eq_false_iff_not]
        omega
      have hfail : ¬ (failAt = some t) := by
        intro hc
        have := h3 t hc
        omega
      simp only [hp, Bool.false_eq_true, if_false, hfail, if_neg]
      exact ih (t + 1) i failAt (by omega) (by omega) h3

end Sylph

/-- Claim C5: over any command sequence, the worker produces at most one
`(command_id, result)` pair for each command id; and a query superseded by
a newer command before it completes (channel seen non-empty at check `i`
with `i < steps`, before any failing call) produces no result at all for
its id. -/
theorem c5_at_most_one_result_per_id :
    (∀ (cmds : List Sylph.CmdSpec) (n id : Nat),
      (Sylph.ThreadedMatcher.run cmds n).countP (fun r => decide (r.1 = id)) ≤ 1) ∧
    (∀ (steps : Nat) (failAt : Option Nat) (i : Nat) (cmds : List Sylph.CmdSpec)
        (n : Nat) (b : Bool),
      i < steps → (∀ f, failAt = some f → i ≤ f) →
      (n + 1, b) ∉ Sylph.ThreadedMatcher.run
        (.query steps failAt (some i) :: cmds) n) := by
  constructor
  · exact fun cmds n id => Sylph.run_countP_le_one cmds n id
  · intro steps failAt i cmds n b hlt hfail hmem
    have hq : Sylph.queryLoop (some i) failAt 0 steps = none :=
      Sylph.queryLoop_superseded steps 0 i failAt (Nat.zero_le i) (by omega) hfail
    rw [show Sylph.ThreadedMatcher.run (.query steps failAt (some i) :: cmds) n =
        (match Sylph.queryLoop (some i) failAt 0 steps with
         | some ok => (n + 1, ok) :: Sylph.ThreadedMatcher.run cmds (n + 1)
         | none => Sylph.ThreadedMatcher.run cmds (n + 1)) from rfl, hq] at hmem
    have := Sylph.run_id_lt cmds (n + 1) (n + 1, b) hmem
    omega

/-- Witness for C5: a query of 5 chunks superseded at check 2, followed by
a one-chunk query; id 1 gets no result and occurs at most once. -/
theorem c5_witness :
    (Sylph.ThreadedMatcher.run
        [.query 5 none (some 2), .query 1 none none] 0).countP
      (fun r => decide (r.1 = 1)) ≤ 1 ∧
    ((1, true) ∉ Sylph.ThreadedMatcher.run
      [Sylph.CmdSpec.query 5 none (some 2), .query 1 none none] 0) :=
  ⟨c5_at_most_one_result_per_id.1 [.query 5 none (some 2), .query 1 none none] 0 1,
   c5_at_most_one_result_per_id.2 5 none 2 [.query 1 none none] 0 true (by decide)
     (fun f h => nomatch h)⟩

namespace Sylph

variable {α : Type} [LinearOrder α] {L E : Type}

theorem length_siftUpGo (start : Nat) (elem : Match α) :
    ∀ (fuel : Nat) (l : List (Match α)) (pos : Nat),
      (siftUpGo start elem fuel l pos).length = l.length := by
  intro fuel
  induction fuel with
  | zero => intro l pos; simp [siftUpGo]
  | succ fuel ih =>
    intro l pos
    unfold siftUpGo
    split
    · split
      · rw [ih]; simp
      · simp
    · simp

theorem siftUp_place {l : List (Match α)} {elem : Match α} {pos : Nat}
    (hlen : pos < l.length)
    (hex : ∀ (d : Match α) (j : Nat), 0 < j → j < l.length → j ≠ pos →
      (l.getD ((j - 1) / 2) d).score ≤ (l.getD j d).score)
    (hchild : ∀ (d : Match α) (c : Nat), (c = 2 * pos + 1 ∨ c = 2 * pos + 2) →
      c < l.length → elem.score ≤ (l.getD c d).score)
    (hstop : 0 < pos → ∀ d : Match α, (l.getD ((pos - 1) / 2) d).score ≤ elem.score) :
    IsMinHeap (l.set pos elem) := by
  intro d j hj hjlen
  rw [List.length_set] at hjlen
  rcases eq_or_ne j pos with rfl | hjp
  · rw [getD_set_ne (by omega : j ≠ (j - 1) / 2), getD_set_self hlen]
    exact hstop hj d
  · by_cases hpj : (j - 1) / 2 = pos
    · rw [hpj, getD_set_self hlen, getD_set_ne (fun he => hjp he.symm)]
      exact hchild d j (by omega) hjlen
    · rw [getD_set_ne (fun he => hpj he.symm), getD_set_ne (fun he => hjp he.symm)]
      exact hex d j hj hjlen hjp

theorem siftUpGo_heap {elem : Match α} :
    ∀ {fuel : Nat} {l : List (Match α)} {pos : Nat},
    pos < l.length → pos ≤ fuel →
    (∀ (d : Match α) (j : Nat), 0 < j → j < l.length → j ≠ pos →
      (l.getD ((j - 1) / 2) d).score ≤ (l.getD j d).score) →
    (∀ (d : Match α) (c : Nat), (c = 2 * pos + 1 ∨ c = 2 * pos + 2) →
      c < l.length → 0 < pos →
      (l.getD ((pos - 1) / 2) d).score ≤ (l.getD c d).score) →
    (∀ (d : Match α) (c : Nat), (c = 2 * pos + 1 ∨ c = 2 * pos + 2) →
      c < l.length → elem.score ≤ (l.getD c d).score) →
    IsMinHeap (siftUpGo 0 elem fuel l pos) := by
  intro fuel
  induction fuel with
  | zero =>
    intro l pos hlen hfuel hex hbridge hchild
    have hp0 : pos = 0 := by omega
    subst hp0
    exact siftUp_place hlen hex hchild (fun h => absurd h (by omega))
  | succ fuel ih =>
    intro l pos hlen hfuel hex hbridge hchild
    unfold siftUpGo
    by_cases h0 : 0 < pos
    · rw [if_pos h0]
      by_cases hgt : hcmp elem (l.getD ((pos - 1) / 2) elem) = .gt
      · rw [if_pos hgt]
        have hparlt : (pos - 1) / 2 < pos := by omega
        have hparlen : (pos - 1) / 2 < l.length := lt_trans hparlt hlen
        have hmove : elem.score < (l.getD ((pos - 1) / 2) elem).score :=
          hcmp_eq_gt_iff.1 hgt
        -- the moved value and the new list
        apply ih
        · rw [List.length_set]; exact hparlen
        · omega
        · -- hex for the hole at parent
          intro d j hj hjlen hjpar
          rw [List.length_set] at hjlen
          rcases eq_or_ne j pos with rfl | hjp
          · rw [getD_set_self hlen,
              getD_set_ne (by omega : j ≠ (j - 1) / 2)]
            rw [getD_indep elem d hparlen]
          · by_cases hpj : (j - 1) / 2 = pos
            · rw [hpj, getD_set_self hlen, getD_set_ne (fun he => hjp he.symm)]
              rw [getD_indep elem d hparlen]
              exact hbridge d j (by omega) hjlen h0
            · rw [getD_set_ne (fun he => hpj he.symm),
                getD_set_ne (fun he => hjp he.symm)]
              exact hex d j hj hjlen hjp
        · -- bridge for the hole at parent
          intro d c hc hclen hpar0
          rw [List.length_set] at hclen
          have hgp_ne : pos ≠ ((pos - 1) / 2 - 1) / 2 := by omega
          have hedge_par : (l.getD (((pos - 1) / 2 - 1) / 2) d).score ≤
              (l.getD ((pos - 1) / 2) d).score :=
            hex d ((pos - 1) / 2) hpar0 hparlen (by omega)
          rcases eq_or_ne c pos with rfl | hcp
          · rw [getD_set_ne hgp_ne, getD_set_self hlen,
              getD_indep elem d hparlen]
            exact hedge_par
          · rw [getD_set_ne hgp_ne, getD_set_ne (fun he => hcp he.symm)]
            have hcpar : (c - 1) / 2 = (pos - 1) / 2 := by omega
            have hedge_c : (l.getD ((pos - 1) / 2) d).score ≤ (l.getD c d).score := by
              have := hex d c (by omega) hclen hcp
              rwa [hcpar] at this
            exact le_trans hedge_par hedge_c
        · -- elem below the hole's children
          intro d c hc hclen
          rw [List.length_set] at hclen
          rcases eq_or_ne c pos with rfl | hcp
          · rw [getD_set_self hlen, getD_indep elem d hparlen]
            exact le_of_lt (by rw [getD_indep d elem hparlen]; exact hmove)
          · rw [getD_set_ne (fun he => hcp he.symm)]
            have hcpar : (c - 1) / 2 = (pos - 1) / 2 := by omega
            have hedge_c : (l.getD ((pos - 1) / 2) d).score ≤ (l.getD c d).score := by
              have := hex d c (by omega) hclen hcp
              rwa [hcpar] at this
            exact le_trans (le_of_lt (by rw [getD_indep d elem hparlen]; exact hmove)) hedge_c
      · rw [if_neg hgt]
        have hstop : (l.getD ((pos - 1) / 2) elem).score ≤ elem.score :=
          hcmp_ne_gt_iff.1 hgt
        apply siftUp_place hlen hex hchild
        intro hp d
        rw [getD_indep d elem (lt_trans (by omega : (pos - 1) / 2 < pos) hlen)]
        exact hstop
    · rw [if_neg h0]
      have hp0 : pos = 0 := by omega
      subst hp0
      exact siftUp_place hlen hex hchild (fun h => absurd h (by omega))

theorem heapPush_heap {l : List (Match α)} {item : Match α}
    (hh : IsMinHeap l) : IsMinHeap (heapPush l item) := by
  unfold heapPush siftUp
  apply siftUpGo_heap
  · simp
  · exact le_refl _
  · intro d j hj hjlen hjp
    rw [List.length_append, List.length_singleton] at hjlen
    have hjlt : j < l.length := by omega
    have hparlt : (j - 1) / 2 < l.length := by
      have := Nat.div_le_self (j - 1) 2
      omega
    rw [List.getD_append _ _ _ _ hjlt, List.getD_append _ _ _ _ hparlt]
    exact hh d j hj hjlt
  · intro d c hc hclen h0
    rw [List.length_append, List.length_singleton] at hclen
    omega
  · intro d c hc hclen
    rw [List.length_append, List.length_singleton] at hclen
    omega

end Sylph

namespace Sylph

variable {α : Type} [LinearOrder α] {L E : Type}

theorem drop_set_of_lt (l : List (Match α)) {i : Nat} (a : Match α) {n : Nat}
    (h : i < n) : (l.set i a).drop n = l.drop n := by
  rw [List.drop_set, if_pos h]

theorem length_siftDownRangeGo (fin : Nat) (elem : Match α) :
    ∀ (fuel : Nat) (l : List (Match α)) (pos : Nat),
      (siftDownRangeGo fin elem fuel l pos).length = l.length := by
  intro fuel
  induction fuel with
  | zero => intro l pos; simp [siftDownRangeGo]
  | succ fuel ih =>
    intro l pos
    unfold siftDownRangeGo
    split
    · split
      · split
        · simp
        · rw [ih]; simp
      · split
        · simp
        · rw [ih]; simp
    · simp

theorem siftDownRangeGo_drop {fin : Nat} {elem : Match α} :
    ∀ {fuel : Nat} {l : List (Match α)} {pos : Nat}, pos < fin →
      (siftDownRangeGo fin elem fuel l pos).drop fin = l.drop fin := by
  intro fuel
  induction fuel with
  | zero => intro l pos hpos; simp [siftDownRangeGo, drop_set_of_lt _ _ hpos]
  | succ fuel ih =>
    intro l pos hpos
    unfold siftDownRangeGo
    split
    · split
      · split
        · rw [drop_set_of_lt _ _ hpos]
        · rw [ih (by omega), drop_set_of_lt _ _ hpos]
      · split
        · rw [drop_set_of_lt _ _ hpos]
        · rw [ih (by omega), drop_set_of_lt _ _ hpos]
    · rw [drop_set_of_lt _ _ hpos]

theorem siftDownRangeGo_values (fin : Nat) (elem : Match α) :
    ∀ (fuel : Nat) (l : List (Match α)) (pos : Nat), pos < fin → fin ≤ l.length →
      ∀ (d : Match α) (j : Nat), j < fin →
        (siftDownRangeGo fin elem fuel l pos).getD j d = elem ∨
        ∃ j', j' < fin ∧ (siftDownRangeGo fin elem fuel l pos).getD j d = l.getD j' d := by
  intro fuel
  induction fuel with
  | zero =>
    intro l pos hpos hfin d j hj
    show (l.set pos elem).getD j d = elem ∨ _
    rcases eq_or_ne pos j with rfl | hne
    · exact Or.inl (getD_set_self (by omega))
    · exact Or.inr ⟨j, hj, getD_set_ne hne⟩
  | succ fuel ih =>
    intro l pos hpos hfin d j hj
    unfold siftDownRangeGo
    have hplace : ∀ (l' : List (Match α)), pos < l'.length →
        (l'.set pos elem).getD j d = elem ∨
        ∃ j', j' < fin ∧ (l'.set pos elem).getD j d = l'.getD j' d := by
      intro l' hl'
      rcases eq_or_ne pos j with rfl | hne
      · exact Or.inl (getD_set_self hl')
      · exact Or.inr ⟨j, hj, getD_set_ne hne⟩
    split
    next h1 =>
      split
      next h2 =>
        split
        · exact hplace l (by omega)
        · rcases ih (l.set pos (l.getD (2 * pos + 2) elem)) (2 * pos + 2) (by omega)
              (by rw [List.length_set]; exact hfin) d j hj with hcase | ⟨j', hj', heq⟩
          · exact Or.inl hcase
          · rcases eq_or_ne pos j' with rfl | hne
            · rw [getD_set_self (by omega : pos < l.length)] at heq
              refine Or.inr ⟨2 * pos + 2, by omega, ?_⟩
              rw [heq]
              exact getD_indep elem d (by omega : 2 * pos + 2 < l.length)
            · rw [getD_set_ne hne] at heq
              exact Or.inr ⟨j', hj', heq⟩
      next h2 =>
        split
        · exact hplace l (by omega)
        · rcases ih (l.set pos (l.getD (2 * pos + 1) elem)) (2 * pos + 1) (by omega)
              (by rw [List.length_set]; exact hfin) d j hj with hcase | ⟨j', hj', heq⟩
          · exact Or.inl hcase
          · rcases eq_or_ne pos j' with rfl | hne
            · rw [getD_set_self (by omega : pos < l.length)] at heq
              refine Or.inr ⟨2 * pos + 1, by omega, ?_⟩
              rw [heq]
              exact getD_indep elem d (by omega : 2 * pos + 1 < l.length)
            · rw [getD_set_ne hne] at heq
              exact Or.inr ⟨j', hj', heq⟩
    · exact hplace l (by omega)

end Sylph

namespace Sylph

variable {α : Type} [LinearOrder α] {L E : Type}

theorem siftDownRangeGo_heap {fin : Nat} {elem : Match α} :
    ∀ {fuel : Nat} (l : List (Match α)) (pos : Nat),
    fin ≤ l.length → pos < fin → fin - pos ≤ fuel →
    (∀ (d : Match α) (j : Nat), 0 < j → j < fin → j ≠ pos → (j - 1) / 2 ≠ pos →
      (l.getD ((j - 1) / 2) d).score ≤ (l.getD j d).score) →
    (∀ (d : Match α) (c : Nat), (c = 2 * pos + 1 ∨ c = 2 * pos + 2) → c < fin → 0 < pos →
      (l.getD ((pos - 1) / 2) d).score ≤ (l.getD c d).score) →
    (∀ d : Match α, 0 < pos → (l.getD ((pos - 1) / 2) d).score ≤ elem.score) →
    IsMinHeapBelow (siftDownRangeGo fin elem fuel l pos) fin := by
  intro fuel
  induction fuel with
  | zero => intro l pos hfin hpos hfuel; omega
  | succ fuel ih =>
    intro l pos hfin hpos hfuel hD1 hD2 hD3
    -- placing elem at the hole, given elem is below the in-range children of pos
    have hplace : (∀ (d : Match α) (c : Nat), (c = 2 * pos + 1 ∨ c = 2 * pos + 2) →
        c < fin → elem.score ≤ (l.getD c d).score) →
        IsMinHeapBelow (l.set pos elem) fin := by
      intro hch d j hj hjfin
      rcases eq_or_ne j pos with rfl | hjp
      · rw [getD_set_ne (by omega : j ≠ (j - 1) / 2), getD_set_self (by omega)]
        exact hD3 d hj
      · by_cases hpj : (j - 1) / 2 = pos
        · rw [hpj, getD_set_self (by omega), getD_set_ne (fun he => hjp he.symm)]
          exact hch d j (by omega) hjfin
        · rw [getD_set_ne (fun he => hpj he.symm), getD_set_ne (fun he => hjp he.symm)]
          exact hD1 d j hj hjfin hjp hpj
    unfold siftDownRangeGo
    split
    next h1 =>
      -- the move step to a chosen child c, shared by both chosen-child cases
      have hmove : ∀ c : Nat, (c = 2 * pos + 1 ∨ c = 2 * pos + 2) → c < fin →
          (∀ (d : Match α) (c' : Nat), (c' = 2 * pos + 1 ∨ c' = 2 * pos + 2) →
            c' < fin → (l.getD c d).score ≤ (l.getD c' d).score) →
          elem.score > (l.getD c elem).score →
          IsMinHeapBelow (siftDownRangeGo fin elem fuel
            (l.set pos (l.getD c elem)) c) fin := by
        intro c hc hcfin hcmin hgt
        have hclen : c < l.length := by omega
        apply ih
        · rw [List.length_set]; exact hfin
        · exact hcfin
        · omega
        · -- D1 for the hole at c
          intro d j hj hjfin hjc hpjc
          rcases eq_or_ne j pos with rfl | hjp
          · -- edge into the old hole: parent(pos) → pos, now holding l[c]
            have hppos : 0 < j := hj
            rw [getD_set_self (by omega), getD_set_ne (by omega : j ≠ (j - 1) / 2)]
            rw [getD_indep elem d hclen]
            exact hD2 d c hc hcfin hj
          · by_cases hpj : (j - 1) / 2 = pos
            · -- edges from the old hole to its other children
              rw [hpj, getD_set_self (by omega), getD_set_ne (fun he => hjp he.symm)]
              rw [getD_indep elem d hclen]
              exact hcmin d j (by omega) hjfin
            · rw [getD_set_ne (fun he => hpj he.symm), getD_set_ne (fun he => hjp he.symm)]
              exact hD1 d j hj hjfin hjp hpj
        · -- D2 for the hole at c: parent(c) = pos holds l[c]
          intro d c' hc' hc'fin hc0
          have hcpar : (c - 1) / 2 = pos := by omega
          rw [hcpar]
          have hc'ne : pos ≠ c' := by omega
          have hc'c : c' ≠ c := by omega
          rw [getD_set_self (by omega), getD_set_ne hc'ne]
          rw [getD_indep elem d hclen]
          -- l[c] ≤ l[c'] where c' is a child of c: the D1 edge at c'
          have := hD1 d c' (by omega) hc'fin (by omega) (by omega)
          rwa [show (c' - 1) / 2 = c from by omega] at this
        · -- D3 for the hole at c
          intro d hc0
          have hcpar : (c - 1) / 2 = pos := by omega
          rw [hcpar, getD_set_self (by omega), getD_indep elem d hclen]
          exact le_of_lt (by rw [getD_indep d elem hclen]; exact hgt)
      split
      next h2 =>
        -- chosen child is the right child 2*pos+2
        have hrmin : ∀ (d : Match α) (c' : Nat), (c' = 2 * pos + 1 ∨ c' = 2 * pos + 2) →
            c' < fin → (l.getD (2 * pos + 2) d).score ≤ (l.getD c' d).score := by
          intro d c' hc' hc'fin
          have hle : (l.getD (2 * pos + 2) d).score ≤ (l.getD (2 * pos + 1) d).score := by
            have := h2.2
            rw [hcmp_ne_gt_iff] at this
            calc (l.getD (2 * pos + 2) d).score
                = (l.getD (2 * pos + 2) elem).score := by
                  rw [getD_indep d elem (by omega : 2 * pos + 2 < l.length)]
              _ ≤ (l.getD (2 * pos + 1) elem).score := this
              _ = (l.getD (2 * pos + 1) d).score := by
                  rw [getD_indep elem d (by omega : 2 * pos + 1 < l.length)]
          rcases hc' with rfl | rfl
          · exact hle
          · exact le_refl _
        split
        next hstop =>
          rw [hcmp_ne_lt_iff] at hstop
          apply hplace
          intro d c hc hcfin
          calc elem.score ≤ (l.getD (2 * pos + 2) elem).score := hstop
            _ ≤ (l.getD c elem).score := hrmin elem c hc hcfin
            _ = (l.getD c d).score := by
                rw [getD_indep elem d (show c < l.length by omega)]
        next hstop =>
          have hgt : elem.score > (l.getD (2 * pos + 2) elem).score := by
            have := not_not.1 fun hc => hstop (by
              rw [hcmp_ne_lt_iff]
              exact not_lt.1 fun hlt => hc (hcmp_eq_lt_iff.2 hlt))
            exact hcmp_eq_lt_iff.1 this
          exact hmove (2 * pos + 2) (Or.inr rfl) h2.1 hrmin hgt
      next h2 =>
        -- chosen child is the left child 2*pos+1
        have hlmin : ∀ (d : Match α) (c' : Nat), (c' = 2 * pos + 1 ∨ c' = 2 * pos + 2) →
            c' < fin → (l.getD (2 * pos + 1) d).score ≤ (l.getD c' d).score := by
          intro d c' hc' hc'fin
          rcases hc' with rfl | rfl
          · exact le_refl _
          · -- right child in range but not chosen: left < right strictly
            have hr : 2 * pos + 2 < fin := hc'fin
            have : hcmp (l.getD (2 * pos + 1) elem) (l.getD (2 * pos + 2) elem) = .gt := by
              by_contra hng
              exact h2 ⟨hr, hng⟩
            have hlt := hcmp_eq_gt_iff.1 this
            calc (l.getD (2 * pos + 1) d).score
                = (l.getD (2 * pos + 1) elem).score := by
                  rw [getD_indep d elem (by omega : 2 * pos + 1 < l.length)]
              _ ≤ (l.getD (2 * pos + 2) elem).score := le_of_lt hlt
              _ = (l.getD (2 * pos + 2) d).score := by
                  rw [getD_indep elem d (by omega : 2 * pos + 2 < l.length)]
        split
        next hstop =>
          rw [hcmp_ne_lt_iff] at hstop
          apply hplace
          intro d c hc hcfin
          calc elem.score ≤ (l.getD (2 * pos + 1) elem).score := hstop
            _ ≤ (l.getD c elem).score := hlmin elem c hc hcfin
            _ = (l.getD c d).score := by
                rw [getD_indep elem d (show c < l.length by omega)]
        next hstop =>
          have hgt : elem.score > (l.getD (2 * pos + 1) elem).score := by
            have := not_not.1 fun hc => hstop (by
              rw [hcmp_ne_lt_iff]
              exact not_lt.1 fun hlt => hc (hcmp_eq_lt_iff.2 hlt))
            exact hcmp_eq_lt_iff.1 this
          exact hmove (2 * pos + 1) (Or.inl rfl) h1 hlmin hgt
    next h1 =>
      -- no child in range: place elem
      apply hplace
      intro d c hc hcfin
      omega

end Sylph

namespace Sylph

variable {α : Type} [LinearOrder α] {L E : Type}

theorem siftDownRangeGo_frame {fin : Nat} {elem : Match α} :
    ∀ {fuel : Nat} (l : List (Match α)) (pos : Nat), pos < fin →
      ∀ (d : Match α) (j : Nat), fin ≤ j →
        (siftDownRangeGo fin elem fuel l pos).getD j d = l.getD j d := by
  intro fuel
  induction fuel with
  | zero =>
    intro l pos hpos d j hj
    exact getD_set_ne (by omega)
  | succ fuel ih =>
    intro l pos hpos d j hj
    unfold siftDownRangeGo
    split
    next h1 =>
      split
      next h2 =>
        split
        · exact getD_set_ne (by omega)
        · rw [ih _ _ (by omega) d j hj, getD_set_ne (by omega)]
      next h2 =>
        split
        · exact getD_set_ne (by omega)
        · rw [ih _ _ (by omega) d j hj, getD_set_ne (by omega)]
    · exact getD_set_ne (by omega)

theorem mem_drop_exists_getD {l : List (Match α)} {n : Nat} {y : Match α} (d : Match α)
    (h : y ∈ l.drop n) : ∃ j, n ≤ j ∧ j < l.length ∧ l.getD j d = y := by
  obtain ⟨i, hi, hy⟩ := List.mem_iff_getElem.1 h
  have hlen : (l.drop n).length = l.length - n := List.length_drop n l
  refine ⟨n + i, by omega, by omega, ?_⟩
  rw [getD_of_lt _ _ (by omega)]
  rw [← hy]
  exact (List.getElem_drop l ..).symm

theorem isvLoop_sorted (d : Match α) :
    ∀ (fin : Nat) (l : List (Match α)), fin ≤ l.length → IsMinHeapBelow l fin →
      List.Sorted scoreGe (l.drop fin) →
      (∀ (d' : Match α) (i j : Nat), i < fin → fin ≤ j → j < l.length →
        (l.getD j d').score ≤ (l.getD i d').score) →
      List.Sorted scoreGe (isvLoop l d fin) := by
  intro fin
  induction fin using Nat.strong_induction_on with
  | _ fin ih =>
    match fin with
    | 0 =>
      intro l _ _ hs _
      simpa [isvLoop] using hs
    | 1 =>
      intro l hfin hh hs hcross
      show List.Sorted scoreGe l
      rcases l with _ | ⟨x, tl⟩
      · simp at hfin
      · refine List.sorted_cons.2 ⟨?_, by simpa using hs⟩
        intro y hy
        obtain ⟨j, hjge, hjlt, hjd⟩ :=
          mem_drop_exists_getD (l := x :: tl) (n := 1) d (by simpa using hy)
        have := hcross d 0 j (by omega) hjge hjlt
        rw [hjd] at this
        rw [getD_of_lt _ _ (by simp : 0 < (x :: tl).length)] at this
        simpa [scoreGe] using this
    | e + 2 =>
      intro l hfin hh hs hcross
      show List.Sorted scoreGe (isvLoop (siftDownRange
        ((l.set 0 (l.getD (e + 1) d)).set (e + 1) (l.getD 0 d)) 0 (e + 1)
        (l.getD (e + 1) d)) d (e + 1))
      have hlen1 : (e : Nat) + 1 < l.length := by omega
      have hlen0 : (0 : Nat) < l.length := by omega
      -- abbreviations
      have harr2len : ((l.set 0 (l.getD (e + 1) d)).set (e + 1) (l.getD 0 d)).length
          = l.length := by simp
      have hl2len : (siftDownRange
          ((l.set 0 (l.getD (e + 1) d)).set (e + 1) (l.getD 0 d)) 0 (e + 1)
          (l.getD (e + 1) d)).length = l.length := by
        unfold siftDownRange
        rw [length_siftDownRangeGo]
        exact harr2len
      -- reads of arr2
      have harr2_at : ∀ (d' : Match α) (j : Nat), 0 < j → j < e + 1 →
          ((l.set 0 (l.getD (e + 1) d)).set (e + 1) (l.getD 0 d)).getD j d'
            = l.getD j d' := by
        intro d' j h0 hj
        rw [getD_set_ne (by omega), getD_set_ne (by omega)]
      have harr2_at0 : ∀ d' : Match α,
          ((l.set 0 (l.getD (e + 1) d)).set (e + 1) (l.getD 0 d)).getD 0 d'
            = l.getD (e + 1) d := by
        intro d'
        rw [getD_set_ne (by omega), getD_set_self hlen0]
      have harr2_atE : ∀ d' : Match α,
          ((l.set 0 (l.getD (e + 1) d)).set (e + 1) (l.getD 0 d)).getD (e + 1) d'
            = l.getD 0 d := by
        intro d'
        rw [getD_set_self (by simp; omega)]
      have harr2_big : ∀ (d' : Match α) (j : Nat), e + 2 ≤ j →
          ((l.set 0 (l.getD (e + 1) d)).set (e + 1) (l.getD 0 d)).getD j d'
            = l.getD j d' := by
        intro d' j hj
        rw [getD_set_ne (by omega), getD_set_ne (by omega)]
      apply ih (e + 1) (by omega)
      · rw [hl2len]; omega
      · -- heap below e+1 after the sift
        show IsMinHeapBelow (siftDownRangeGo (e + 1) (l.getD (e + 1) d) (e + 1)
          ((l.set 0 (l.getD (e + 1) d)).set (e + 1) (l.getD 0 d)) 0) (e + 1)
        apply siftDownRangeGo_heap
        · rw [harr2len]; omega
        · omega
        · omega
        · intro d' j hj hjfin hj0 hpj0
          rw [harr2_at d' j hj (by omega),
            harr2_at d' ((j - 1) / 2) (by omega) (by omega)]
          exact hh d' j hj (by omega)
        · intro d' c hc hcfin h00
          omega
        · intro d' h00
          omega
      · -- the suffix after the sift: old root consed onto the old suffix
        have hdrop : (siftDownRange
            ((l.set 0 (l.getD (e + 1) d)).set (e + 1) (l.getD 0 d)) 0 (e + 1)
            (l.getD (e + 1) d)).drop (e + 1)
            = l.getD 0 d :: l.drop (e + 2) := by
          unfold siftDownRange
          rw [siftDownRangeGo_drop (by omega)]
          rw [List.drop_set, if_neg (by omega)]
          rw [drop_set_of_lt _ _ (by omega)]
          rw [List.drop_eq_getElem_cons hlen1]
          simp only [Nat.sub_self, List.set_cons_zero]
        rw [hdrop]
        refine List.sorted_cons.2 ⟨?_, hs⟩
        intro y hy
        obtain ⟨j, hjge, hjlt, hjd⟩ := mem_drop_exists_getD d hy
        have := hcross d 0 j (by omega) (by omega) hjlt
        rw [hjd] at this
        exact this
      · -- cross property for the next round
        intro d' i j hi hjge hjlt
        rw [hl2len] at hjlt
        -- the read beyond e+1 is untouched
        have hjval : (siftDownRange
            ((l.set 0 (l.getD (e + 1) d)).set (e + 1) (l.getD 0 d)) 0 (e + 1)
            (l.getD (e + 1) d)).getD j d'
            = ((l.set 0 (l.getD (e + 1) d)).set (e + 1) (l.getD 0 d)).getD j d' := by
          show (siftDownRangeGo (e + 1) (l.getD (e + 1) d) (e + 1) _ 0).getD j d' = _
          exact siftDownRangeGo_frame _ 0 (by omega) d' j hjge
        -- the read below e+1 is an old prefix value or the sifted element
        have hival := siftDownRangeGo_values (e + 1) (l.getD (e + 1) d) (e + 1)
          ((l.set 0 (l.getD (e + 1) d)).set (e + 1) (l.getD 0 d)) 0 (by omega)
          (by rw [harr2len]; omega) d' i hi
        have hival2 : (siftDownRange
            ((l.set 0 (l.getD (e + 1) d)).set (e + 1) (l.getD 0 d)) 0 (e + 1)
            (l.getD (e + 1) d)).getD i d' = l.getD (e + 1) d ∨
            ∃ i', i' < e + 1 ∧ (siftDownRange
              ((l.set 0 (l.getD (e + 1) d)).set (e + 1) (l.getD 0 d)) 0 (e + 1)
              (l.getD (e + 1) d)).getD i d'
              = ((l.set 0 (l.getD (e + 1) d)).set (e + 1) (l.getD 0 d)).getD i' d' :=
          hival
        -- every candidate value of the new prefix is an old in-range value
        have hival' : ∃ k, k < e + 2 ∧ (siftDownRange
            ((l.set 0 (l.getD (e + 1) d)).set (e + 1) (l.getD 0 d)) 0 (e + 1)
            (l.getD (e + 1) d)).getD i d' = l.getD k d' := by
          rcases hival2 with hiv | ⟨i', hi', heq⟩
          · refine ⟨e + 1, by omega, ?_⟩
            rw [hiv]
            exact getD_indep d d' hlen1
          · rcases Nat.eq_zero_or_pos i' with rfl | hi'0
            · refine ⟨e + 1, by omega, ?_⟩
              rw [heq, harr2_at0 d']
              exact getD_indep d d' hlen1
            · refine ⟨i', by omega, ?_⟩
              rw [heq, harr2_at d' i' hi'0 hi']
        obtain ⟨k, hk, hkeq⟩ := hival'
        rw [hjval, hkeq]
        rcases eq_or_ne j (e + 1) with rfl | hjne
        · rw [harr2_atE d']
          have := heap_root_min hh d' k (by omega)
          rw [getD_indep d d' hlen0]
          exact this
        · rw [harr2_big d' j (by omega)]
          exact hcross d' k j hk (by omega) hjlt

theorem intoSortedVec_sorted {l : List (Match α)} (hh : IsMinHeap l) :
    List.Sorted scoreGe (intoSortedVec l) := by
  unfold intoSortedVec
  split
  · exact List.sorted_nil
  next m tl =>
    apply isvLoop_sorted
    · exact le_refl _
    · exact hh
    · simp
    · intro d' i j hi hjge hjlt
      omega

end Sylph

namespace Sylph

variable {α : Type} [LinearOrder α] {L E : Type}

theorem siftDownToBottomGo_spec (fin : Nat) (elem : Match α) :
    ∀ (fuel : Nat) (l : List (Match α)) (pos : Nat),
    fin ≤ l.length → pos < fin → fin - pos ≤ fuel →
    (∀ (d : Match α) (j : Nat), 0 < j → j < fin → j ≠ pos → (j - 1) / 2 ≠ pos →
      (l.getD ((j - 1) / 2) d).score ≤ (l.getD j d).score) →
    (∀ (d : Match α) (c : Nat), (c = 2 * pos + 1 ∨ c = 2 * pos + 2) → c < fin → 0 < pos →
      (l.getD ((pos - 1) / 2) d).score ≤ (l.getD c d).score) →
    (siftDownToBottomGo fin elem fuel l pos).1.length = l.length ∧
    (siftDownToBottomGo fin elem fuel l pos).2 < fin ∧
    fin ≤ 2 * (siftDownToBottomGo fin elem fuel l pos).2 + 1 ∧
    (∀ (d : Match α) (j : Nat), 0 < j → j < fin →
      j ≠ (siftDownToBottomGo fin elem fuel l pos).2 →
      ((siftDownToBottomGo fin elem fuel l pos).1.getD ((j - 1) / 2) d).score ≤
        ((siftDownToBottomGo fin elem fuel l pos).1.getD j d).score) := by
  intro fuel
  induction fuel with
  | zero => intro l pos hfin hpos hfuel; omega
  | succ fuel ih =>
    intro l pos hfin hpos hfuel hD1 hD2
    unfold siftDownToBottomGo
    -- the unconditional move to a chosen child c, shared by both cases
    have hmove : ∀ c : Nat, (c = 2 * pos + 1 ∨ c = 2 * pos + 2) → c < fin →
        (∀ (d : Match α) (c' : Nat), (c' = 2 * pos + 1 ∨ c' = 2 * pos + 2) →
          c' < fin → (l.getD c d).score ≤ (l.getD c' d).score) →
        (siftDownToBottomGo fin elem fuel (l.set pos (l.getD c elem)) c).1.length
          = (l.set pos (l.getD c elem)).length ∧
        (siftDownToBottomGo fin elem fuel (l.set pos (l.getD c elem)) c).2 < fin ∧
        fin ≤ 2 * (siftDownToBottomGo fin elem fuel (l.set pos (l.getD c elem)) c).2 + 1 ∧
        (∀ (d : Match α) (j : Nat), 0 < j → j < fin →
          j ≠ (siftDownToBottomGo fin elem fuel (l.set pos (l.getD c elem)) c).2 →
          ((siftDownToBottomGo fin elem fuel (l.set pos (l.getD c elem)) c).1.getD
              ((j - 1) / 2) d).score ≤
            ((siftDownToBottomGo fin elem fuel (l.set pos (l.getD c elem)) c).1.getD
              j d).score) := by
      intro c hc hcfin hcmin
      have hclen : c < l.length := by omega
      apply ih
      · rw [List.length_set]; exact hfin
      · exact hcfin
      · omega
      · intro d j hj hjfin hjc hpjc
        rcases eq_or_ne j pos with rfl | hjp
        · rw [getD_set_self (by omega), getD_set_ne (by omega : j ≠ (j - 1) / 2)]
          rw [getD_indep elem d hclen]
          exact hD2 d c hc hcfin hj
        · by_cases hpj : (j - 1) / 2 = pos
          · rw [hpj, getD_set_self (by omega), getD_set_ne (fun he => hjp he.symm)]
            rw [getD_indep elem d hclen]
            exact hcmin d j (by omega) hjfin
          · rw [getD_set_ne (fun he => hpj he.symm), getD_set_ne (fun he => hjp he.symm)]
            exact hD1 d j hj hjfin hjp hpj
      · intro d c' hc' hc'fin hc0
        have hcpar : (c - 1) / 2 = pos := by omega
        rw [hcpar]
        rw [getD_set_self (by omega), getD_set_ne (by omega : pos ≠ c')]
        rw [getD_indep elem d hclen]
        have := hD1 d c' (by omega) hc'fin (by omega) (by omega)
        rwa [show (c' - 1) / 2 = c from by omega] at this
    split
    next h1 =>
      split
      next h2 =>
        have hrmin : ∀ (d : Match α) (c' : Nat), (c' = 2 * pos + 1 ∨ c' = 2 * pos + 2) →
            c' < fin → (l.getD (2 * pos + 2) d).score ≤ (l.getD c' d).score := by
          intro d c' hc' hc'fin
          have hle : (l.getD (2 * pos + 2) d).score ≤ (l.getD (2 * pos + 1) d).score := by
            have := h2.2
            rw [hcmp_ne_gt_iff] at this
            calc (l.getD (2 * pos + 2) d).score
                = (l.getD (2 * pos + 2) elem).score := by
                  rw [getD_indep d elem (by omega : 2 * pos + 2 < l.length)]
              _ ≤ (l.getD (2 * pos + 1) elem).score := this
              _ = (l.getD (2 * pos + 1) d).score := by
                  rw [getD_indep elem d (by omega : 2 * pos + 1 < l.length)]
          rcases hc' with rfl | rfl
          · exact hle
          · exact le_refl _
        have := hmove (2 * pos + 2) (Or.inr rfl) h2.1 hrmin
        rw [List.length_set] at this
        exact this
      next h2 =>
        have hlmin : ∀ (d : Match α) (c' : Nat), (c' = 2 * pos + 1 ∨ c' = 2 * pos + 2) →
            c' < fin → (l.getD (2 * pos + 1) d).score ≤ (l.getD c' d).score := by
          intro d c' hc' hc'fin
          rcases hc' with rfl | rfl
          · exact le_refl _
          · have hr : 2 * pos + 2 < fin := hc'fin
            have hgt : hcmp (l.getD (2 * pos + 1) elem) (l.getD (2 * pos + 2) elem)
                = .gt := by
              by_contra hng
              exact h2 ⟨hr, hng⟩
            have hlt := hcmp_eq_gt_iff.1 hgt
            calc (l.getD (2 * pos + 1) d).score
                = (l.getD (2 * pos + 1) elem).score := by
                  rw [getD_indep d elem (by omega : 2 * pos + 1 < l.length)]
              _ ≤ (l.getD (2 * pos + 2) elem).score := le_of_lt hlt
              _ = (l.getD (2 * pos + 2) d).score := by
                  rw [getD_indep elem d (by omega : 2 * pos + 2 < l.length)]
        have := hmove (2 * pos + 1) (Or.inl rfl) h1 hlmin
        rw [List.length_set] at this
        exact this
    next h1 =>
      refine ⟨rfl, hpos, by omega, ?_⟩
      intro d j hj hjfin hjpos
      by_cases hpj : (j - 1) / 2 = pos
      · omega
      · exact hD1 d j hj hjfin hjpos hpj

theorem heapPop_heap {l : List (Match α)} (hh : IsMinHeap l) :
    IsMinHeap (heapPop l) := by
  unfold heapPop
  split
  · exact hh
  next last hlast =>
    have hne : l ≠ [] := by
      intro he
      rw [he] at hlast
      simp at hlast
    have hlen : l.dropLast.length = l.length - 1 := List.length_dropLast l
    dsimp only
    split
    next hzero =>
      intro d j hj hjlen
      omega
    next hzero =>
      have hdl : 0 < l.dropLast.length := by omega
      unfold siftDownToBottom
      simp only [List.length_set]
      have hdlgetD : ∀ (d : Match α) (j : Nat), j < l.dropLast.length →
          l.dropLast.getD j d = l.getD j d := by
        intro d j hjl
        rw [getD_of_lt _ _ hjl, getD_of_lt _ _ (by omega)]
        exact List.getElem_dropLast l j hjl
      have hD1 : ∀ (d : Match α) (j : Nat), 0 < j → j < (l.dropLast.set 0 last).length →
          j ≠ 0 → (j - 1) / 2 ≠ 0 →
          (((l.dropLast.set 0 last).getD ((j - 1) / 2) d).score ≤
            ((l.dropLast.set 0 last).getD j d).score) := by
        intro d j hj hjlen hj0 hpj0
        rw [List.length_set] at hjlen
        rw [getD_set_ne (fun he => hpj0 he.symm), getD_set_ne (fun he => hj0 he.symm)]
        rw [hdlgetD d j hjlen, hdlgetD d ((j - 1) / 2) (by omega)]
        exact hh d j hj (by omega)
      have hspec := siftDownToBottomGo_spec (l.dropLast.length) last
        (l.dropLast.length) (l.dropLast.set 0 last) 0
        (by rw [List.length_set]) hdl (by omega)
        (by
          intro d j hj hjfin hj0 hpj0
          exact hD1 d j hj (by rw [List.length_set]; omega) hj0 hpj0)
        (by intro d c hc hcfin h00; omega)
      obtain ⟨hslen, hspos, hschild, hsD1⟩ := hspec
      apply siftUpGo_heap
      · rw [hslen, List.length_set]
        omega
      · exact le_refl _
      · intro d j hj hjlen hjp
        rw [hslen, List.length_set] at hjlen
        exact hsD1 d j hj (by omega) hjp
      · intro d c hc hclen h0
        rw [hslen, List.length_set] at hclen
        omega
      · intro d c hc hclen
        rw [hslen, List.length_set] at hclen
        omega

end Sylph

namespace Sylph

variable {α : Type} [LinearOrder α] {L E : Type}

theorem offerMatch_heap {num_results progressed_to : Nat} {res : List (Match α)}
    {mm : Match α} (hh : IsMinHeap res) :
    IsMinHeap (offerMatch num_results progressed_to res mm) := by
  unfold offerMatch
  dsimp only
  split
  · exact heapPush_heap hh
  · split
    · split
      · exact heapPush_heap (heapPop_heap hh)
      · exact hh
    · exact hh

theorem foldl_offerMatch_heap {num_results progressed_to : Nat} :
    ∀ {ms : List (Match α)} {res : List (Match α)}, IsMinHeap res →
      IsMinHeap (ms.foldl (offerMatch num_results progressed_to) res) := by
  intro ms
  induction ms with
  | nil => intro res hh; exact hh
  | cons m ms ih => intro res hh; exact ih (offerMatch_heap hh)

theorem process_ok_heap {scorer : Nat → L → Except E (Option (Match α))}
    {num_results : Nat} {lines : List L} {s s' : IncrementalMatcher α}
    {p : Progress α} {n : Nat}
    (h : IncrementalMatcher.process scorer num_results lines s n = .ok (s', p))
    (hh : IsMinHeap s.results) : IsMinHeap s'.results := by
  unfold IncrementalMatcher.process at h
  split at h
  · simp only [Except.ok.injEq, Prod.mk.injEq] at h
    obtain ⟨hs, _⟩ := h
    subst hs
    exact hh
  · dsimp only at h
    split at h
    · exact absurd h (by simp)
    · split at h
      · simp only [Except.ok.injEq, Prod.mk.injEq] at h
        obtain ⟨hs, _⟩ := h
        subst hs
        exact foldl_offerMatch_heap hh
      · simp only [Except.ok.injEq, Prod.mk.injEq] at h
        obtain ⟨hs, _⟩ := h
        subst hs
        exact foldl_offerMatch_heap hh

theorem reaches_heap {scorer : Nat → L → Except E (Option (Match α))}
    {num_results : Nat} {lines : List L} {s : IncrementalMatcher α}
    (h : Reaches scorer num_results lines s) : IsMinHeap s.results := by
  induction h with
  | init =>
    intro d j hj hjlen
    simp [IncrementalMatcher.new] at hjlen
  | step hr hp ih => exact process_ok_heap hp ih

theorem reachable_done_sorted {scorer : Nat → L → Except E (Option (Match α))}
    {num_results : Nat} {lines : List L} {s s' : IncrementalMatcher α}
    {r : List (Match α)} {n : Nat}
    (hr : Reaches scorer num_results lines s)
    (h : IncrementalMatcher.process scorer num_results lines s n = .ok (s', .done r)) :
    List.Sorted scoreGe r := by
  obtain ⟨_, hre⟩ := process_done_inv h
  have hh : IsMinHeap s'.results := reaches_heap (Reaches.step hr h)
  rw [hre]
  exact intoSortedVec_sorted hh

end Sylph

/-- Claim C4 as amended: in every result list handed back to the caller the
matches are ordered by score non-increasing — proved for every successful
`best_matches` call, and for every `Done` list of an incremental session
reachable from `IncrementalMatcher::new` — while the order of equal-score
matches is implementation-determined (both orderings compare only scores),
not index-ascending. -/
theorem c4_amended_sorted_by_score :
    (∀ {α : Type} [LinearOrder α] {L E : Type}
      (scorer : Nat → L → Except E (Option (Sylph.Match α))) (k : Nat)
      (lines : List L) (res : List (Sylph.Match α)),
      Sylph.best_matches scorer k lines = .ok res → res.Sorted Sylph.scoreGe) ∧
    (∀ {α : Type} [LinearOrder α] {L E : Type}
      (scorer : Nat → L → Except E (Option (Sylph.Match α))) (k : Nat)
      (lines : List L) (s s' : Sylph.IncrementalMatcher α)
      (r : List (Sylph.Match α)) (n : Nat),
      Sylph.Reaches scorer k lines s →
      Sylph.IncrementalMatcher.process scorer k lines s n = .ok (s', .done r) →
      r.Sorted Sylph.scoreGe) :=
  ⟨fun _ _ _ _ h => Sylph.best_matches_sorted h,
   fun _ _ _ _ _ _ _ hr h => Sylph.reachable_done_sorted hr h⟩

/-- Witness for the amended C4 at concrete runs of both return paths. -/
theorem c4_witness :
    List.Sorted Sylph.scoreGe [(⟨2, 3, 0, 0, 0⟩ : Sylph.Match ℚ), ⟨1, 1, 0, 0, 0⟩] ∧
    List.Sorted Sylph.scoreGe [(⟨1, 5, 0, 0, 0⟩ : Sylph.Match ℚ), ⟨0, 5, 0, 0, 0⟩] :=
  ⟨c4_amended_sorted_by_score.1 Sylph.qScorer 2 [(2 : ℚ), 1, 3]
      [⟨2, 3, 0, 0, 0⟩, ⟨1, 1, 0, 0, 0⟩] rfl,
   c4_amended_sorted_by_score.2 Sylph.qScorer 2 [(5 : ℚ), 5]
      Sylph.IncrementalMatcher.new ⟨2, [⟨0, 5, 0, 0, 0⟩, ⟨1, 5, 0, 0, 0⟩]⟩
      [⟨1, 5, 0, 0, 0⟩, ⟨0, 5, 0, 0, 0⟩] 2 Sylph.Reaches.init rfl⟩
